import Mathlib

/-!
# Verification of the QuizGenPro text-processing core

Shallow embedding of the TypeScript text pipeline (normalization,
header/footer filtering, sentence splitting, semantic chunking,
similarity scoring, answer grading, distractor selection) as Lean
functions over `List Char`, together with proofs and refutations of the
specified properties.

Strings are modelled as `List Char`.  JavaScript regular-expression
replacements are modelled as left-to-right scans with the same greedy
semantics as the source regexes.
-/

namespace QuizGenPro

/-- The JavaScript `\s` character class (as used by `RegExp` and
`String.prototype.trim`): ASCII whitespace plus the Unicode space
separators, line/paragraph separators, NBSP, narrow NBSP, and BOM. -/
def isWs (c : Char) : Bool :=
  c = ' ' || c = '\t' || c = '\n' || c = '\r' ||
  c = Char.ofNat 0x0b || c = Char.ofNat 0x0c ||
  c = Char.ofNat 0xa0 || c = Char.ofNat 0x1680 ||
  c = Char.ofNat 0x2000 || c = Char.ofNat 0x2001 ||
  c = Char.ofNat 0x2002 || c = Char.ofNat 0x2003 ||
  c = Char.ofNat 0x2004 || c = Char.ofNat 0x2005 ||
  c = Char.ofNat 0x2006 || c = Char.ofNat 0x2007 ||
  c = Char.ofNat 0x2008 || c = Char.ofNat 0x2009 ||
  c = Char.ofNat 0x200a ||
  c = Char.ofNat 0x2028 || c = Char.ofNat 0x2029 ||
  c = Char.ofNat 0x202f || c = Char.ofNat 0x205f ||
  c = Char.ofNat 0x3000 || c = Char.ofNat 0xfeff

/-- `String.prototype.trim`: drop leading and trailing `\s` characters. -/
def jsTrim (s : List Char) : List Char :=
  ((s.dropWhile isWs).reverse.dropWhile isWs).reverse

/-- `.replace(/\r\n/g, '\n')`: each CRLF pair becomes a single LF. -/
def replaceCRLF : List Char → List Char
  | [] => []
  | [c] => [c]
  | c1 :: c2 :: rest =>
      if c1 = '\r' ∧ c2 = '\n' then '\n' :: replaceCRLF rest
      else c1 :: replaceCRLF (c2 :: rest)

/-- `.replace(/\r/g, '\n')`: every remaining CR becomes LF. -/
def replaceCR (s : List Char) : List Char :=
  s.map fun c => if c = '\r' then '\n' else c

/-- The global replacement of the regex "hyphen, line feed, `\s*`" by
the empty string: a hyphen immediately followed by a line break and any
run of whitespace is deleted (hyphenation repair).  The flag records
that we are inside the greedy `\s*` tail of a match. -/
def removeHyphenationAux : Bool → List Char → List Char
  | _, [] => []
  | skip, [c] =>
      if skip ∧ isWs c then [] else [c]
  | skip, c1 :: c2 :: rest =>
      if c1 = '-' ∧ c2 = '\n' then removeHyphenationAux true rest
      else if skip ∧ isWs c1 then removeHyphenationAux true (c2 :: rest)
      else c1 :: removeHyphenationAux false (c2 :: rest)

def removeHyphenation (s : List Char) : List Char :=
  removeHyphenationAux false s

/-- `.replace(/\n{2,}/g, '\n\n')`: a run of two or more line feeds is
collapsed to exactly two.  The flag records that we are consuming the
remainder of a matched run. -/
def collapseNewlinesAux : Bool → List Char → List Char
  | _, [] => []
  | skip, [c] =>
      if skip ∧ c = '\n' then [] else [c]
  | skip, c1 :: c2 :: rest =>
      if skip ∧ c1 = '\n' then collapseNewlinesAux true (c2 :: rest)
      else if c1 = '\n' ∧ c2 = '\n' then '\n' :: '\n' :: collapseNewlinesAux true rest
      else c1 :: collapseNewlinesAux false (c2 :: rest)

def collapseNewlines (s : List Char) : List Char :=
  collapseNewlinesAux false s

/-- `.replace(/\n/g, ' ')`. -/
def newlineToSpace (s : List Char) : List Char :=
  s.map fun c => if c = '\n' then ' ' else c

/-- `.replace(/\s+/g, ' ')`: each maximal whitespace run becomes one
space.  The flag records that the previous character was whitespace. -/
def collapseWsAux : Bool → List Char → List Char
  | prevWs, c :: rest =>
      if isWs c then
        if prevWs then collapseWsAux true rest
        else ' ' :: collapseWsAux true rest
      else c :: collapseWsAux false rest
  | _, [] => []

def collapseWs (s : List Char) : List Char :=
  collapseWsAux false s

/-- `normalizeTextForExtraction` (src/unnamed/part_000, lines 49–61):
unify line endings, repair hyphenation, collapse multiple line breaks,
turn the remaining line breaks into spaces, collapse whitespace, trim. -/
def normalizeTextForExtraction (text : List Char) : List Char :=
  if text = [] then []
  else
    jsTrim (collapseWs (newlineToSpace (collapseNewlines
      (removeHyphenation (replaceCR (replaceCRLF text))))))

/-! ## Sentence splitting -/

/-- Terminal punctuation recognized by the sentence splitter. -/
def isTerminal (c : Char) : Bool :=
  c = '.' || c = '!' || c = '?'

/-- Length of the regex match
`[^.!?]+[.!?]+(?:\s|$)|[^.!?]+$` at the start of `s`;
`0` when neither alternative matches there.  The first alternative is a
maximal run of non-terminal characters, a maximal run of terminal
characters (backtracking cannot help, because the character after the
maximal terminal run is non-terminal and `\s` never matches a
terminal), then either one whitespace character or end of input.  The
second alternative matches only when the whole remainder of the string
contains no terminal character. -/
def sentMatchLen (s : List Char) : Nat :=
  let a := s.takeWhile fun c => !isTerminal c
  if a = [] then 0
  else
    let r1 := s.drop a.length
    let b := r1.takeWhile isTerminal
    if b = [] then a.length
    else
      let r2 := r1.drop b.length
      match r2 with
      | [] => a.length + b.length
      | c :: _ => if isWs c then a.length + b.length + 1 else 0

/-- Global regex scan: at each position try to match; on success record
the match and continue after it, on failure advance one character.
`fuel` bounds the number of scan steps; since every step consumes at
least one character, `s.length` fuel always suffices. -/
def scanSentencesF : Nat → List Char → List (List Char)
  | 0, _ => []
  | _, [] => []
  | fuel + 1, c :: rest =>
      let k := sentMatchLen (c :: rest)
      if k = 0 then scanSentencesF fuel rest
      else (c :: rest).take k :: scanSentencesF fuel ((c :: rest).drop k)

/-- `splitIntoSentences` (src/unnamed/part_000, lines 80–86): match the
sentence regex globally, trim each match, drop empty results. -/
def splitIntoSentences (text : List Char) : List (List Char) :=
  ((scanSentencesF text.length text).map jsTrim).filter (· ≠ [])

/-! ## Semantic chunking -/

/-- The chunk record
`{id, text, startSentence, endSentence, startChar, endChar}`. -/
structure Chunk where
  id : List Char
  text : List Char
  startSentence : Nat
  endSentence : Nat
  startChar : Nat
  endChar : Nat
deriving DecidableEq, Repr

/-- `Array.prototype.join(' ')`. -/
def joinWith (c : Char) : List (List Char) → List Char
  | [] => []
  | [x] => x
  | x :: y :: rest => x ++ c :: joinWith c (y :: rest)

/-- The chunk id template string `"{startChar}-{endChar}"`. -/
def chunkId (startChar endChar : Nat) : List Char :=
  (toString startChar).toList ++ '-' :: (toString endChar).toList

/-- The inner fill loop of `chunkIntoSemanticChunks`: starting from the
remaining sentence list, keep appending sentences while the accumulated
length (each sentence counted as its length plus one) is below
`chunkChars`, but always take at least one sentence (`first` records
that `parts` is still empty). -/
def fillParts (cc : Nat) : List (List Char) → Nat → Bool → List (List Char)
  | [], _, _ => []
  | s :: rest, len, first =>
      if len < cc || first then s :: fillParts cc rest (len + s.length + 1) false
      else []

/-- The backward overlap walk of `chunkIntoSemanticChunks`: walking
back from the last included sentence (the list argument is the included
sentences after the first one, in reverse order), count how many
sentences are stepped over while the accumulated backward length is
below `overlapChars`. -/
def backCount (oc : Nat) : List (List Char) → Nat → Nat
  | [], _ => 0
  | s :: rest, back =>
      if back < oc then 1 + backCount oc rest (back + s.length + 1)
      else 0

/-- The outer chunking loop (src/unnamed/part_000, lines 96–127) over
the sentence list `ss`, with cursor `idx` and running character
position `charPos`.  `fuel` bounds the number of produced chunks;
`none` means the fuel ran out (`chunkLoopF_total` below proves
`ss.length + 1` fuel always suffices, i.e. the loop terminates). -/
def chunkLoopF (ss : List (List Char)) (cc oc : Nat) :
    Nat → Nat → Nat → Option (List Chunk)
  | 0, _, _ => none
  | fuel + 1, idx, charPos =>
      if idx < ss.length then
        let parts := fillParts cc (ss.drop idx) 0 true
        let idx2 := idx + parts.length
        let chunkText := joinWith ' ' parts
        let endChar := charPos + chunkText.length
        let chunk : Chunk :=
          ⟨chunkId charPos endChar, chunkText, idx, idx2 - 1, charPos, endChar⟩
        if idx2 < ss.length then
          let t := backCount oc (parts.drop 1).reverse 0
          let newIdx := max idx (idx2 - t)
          let charPos2 := charPos + (chunkText.length - oc)
          match chunkLoopF ss cc oc fuel newIdx charPos2 with
          | some rest => some (chunk :: rest)
          | none => none
        else some [chunk]
      else some []

/-- `chunkIntoSemanticChunks` (src/unnamed/part_000, lines 89–129):
normalize, split into sentences, then run the chunking loop. -/
def chunkIntoSemanticChunks (text : List Char) (cc oc : Nat) : List Chunk :=
  let normalized := normalizeTextForExtraction text
  if normalized = [] then []
  else
    let sentences := splitIntoSentences normalized
    (chunkLoopF sentences cc oc (sentences.length + 1) 0 0).getD []

/-! ## Header/footer removal -/

/-- `String.prototype.split(sep)` for a one-character separator. -/
def splitOn (sep : Char) : List Char → List (List Char)
  | [] => [[]]
  | x :: rest =>
      if x = sep then [] :: splitOn sep rest
      else
        match splitOn sep rest with
        | r :: rs => (x :: r) :: rs
        | [] => [[x]]

/-- First non-empty trimmed line of a page, or the empty string
(`p.split('\n').map(l => l.trim()).filter(Boolean)[0] || ''`). -/
def firstNonemptyLine (p : List Char) : List Char :=
  (((splitOn '\n' p).map jsTrim).filter (· ≠ [])).headD []

/-- Last non-empty trimmed line of a page, or the empty string. -/
def lastNonemptyLine (p : List Char) : List Char :=
  (((splitOn '\n' p).map jsTrim).filter (· ≠ [])).getLastD []

/-- `removeHeadersFootersFromPages` (src/unnamed/part_000, lines
64–77): with fewer than two pages return the input unchanged;
otherwise pool the first and last non-empty trimmed lines of all
pages, classify any non-empty line occurring more than once in the
pool as a repeated artifact, and rewrite every page by trimming each
of its lines and dropping the lines classified as artifacts. -/
def removeHeadersFootersFromPages (pages : List (List Char)) : List (List Char) :=
  if pages.length ≤ 1 then pages
  else
    let pool := pages.map firstNonemptyLine ++ pages.map lastNonemptyLine
    pages.map fun p =>
      if p = [] then p
      else
        let lines := (splitOn '\n' p).map jsTrim
        joinWith '\n' (lines.filter fun l => !(l ≠ [] && 2 ≤ pool.count l))

/-! ## Similarity engine

The TypeScript similarity code computes with IEEE floating point; the
embedding idealizes scores as real numbers (`ℚ` where the source value
is exactly rational, `ℝ` for the cosine, whose value involves square
roots).
-/

/-- `normalizeText` (src/app/page.tsx, lines 216–222; identical copy in
src/app/api/extract/route.ts): lowercase, replace every character that
is not a lowercase letter, digit or whitespace by a space, collapse
whitespace runs, trim. -/
def simNormalize (s : List Char) : List Char :=
  jsTrim (collapseWs ((s.map Char.toLower).map fun c =>
    if ('a' ≤ c && c ≤ 'z') || ('0' ≤ c && c ≤ '9') || isWs c then c else ' '))

/-- The fixed stopword set of `tokens`. -/
def stopList : List (List Char) :=
  ["the", "is", "in", "and", "of", "a", "to", "for", "with", "on", "by",
   "an", "be", "that", "this", "it", "as", "are"].map String.toList

/-- The whitespace-split, empty-filtered word sequence of the
normalized text: `normalizeText(s).split(' ').filter(Boolean)`.  This
is the token sequence shared by `tokens` (which then removes
stopwords) and `bigrams` (which does not). -/
def simWords (s : List Char) : List (List Char) :=
  (splitOn ' ' (simNormalize s)).filter (· ≠ [])

/-- `tokens` (src/app/page.tsx, lines 224–227): normalized words with
the stopwords removed. -/
def tokens (s : List Char) : List (List Char) :=
  (simWords s).filter fun t => !stopList.contains t

/-- `jaccard` (src/app/page.tsx, lines 229–235): Jaccard similarity of
the two token sets (`0` when the union is empty). -/
def jaccard (a b : List (List Char)) : ℚ :=
  let inter := (a.toFinset ∩ b.toFinset).card
  let uni := (a.toFinset ∪ b.toFinset).card
  if uni = 0 then 0 else (inter : ℚ) / uni

/-- Term frequency of the word `w` in the token list `a`
(the `fa[w] = (fa[w] || 0) + 1` accumulation). -/
def tf (a : List (List Char)) (w : List Char) : Nat :=
  a.count w

/-- Dot product of the two term-frequency vectors over the union
vocabulary. -/
def tfDot (a b : List (List Char)) : Nat :=
  ∑ w ∈ (a ++ b).toFinset, tf a w * tf b w

/-- Squared L2 norm of a term-frequency vector. -/
def tfSqNorm (a : List (List Char)) : Nat :=
  ∑ w ∈ a.toFinset, tf a w ^ 2

/-- `cosineSim` (src/app/page.tsx, lines 237–252): cosine of the
term-frequency vectors, `0` when either vector is all-zero. -/
noncomputable def cosineSim (a b : List (List Char)) : ℝ :=
  if tfSqNorm a = 0 ∨ tfSqNorm b = 0 then 0
  else (tfDot a b : ℝ) / (Real.sqrt (tfSqNorm a) * Real.sqrt (tfSqNorm b))

/-- `semanticSimilarity` (src/app/page.tsx, lines 254–261): `0` when
either token list is empty, else the larger of Jaccard and cosine. -/
noncomputable def semanticSimilarity (a b : List Char) : ℝ :=
  let ta := tokens a
  let tb := tokens b
  if ta = [] ∨ tb = [] then 0
  else max ((jaccard ta tb : ℚ) : ℝ) (cosineSim ta tb)

/-- Adjacent pairs, each joined by a single space (the index loop
`for (i = 0; i < parts.length - 1; i++) out.push(parts[i] + ' ' + parts[i+1])`). -/
def adjacentPairs : List (List Char) → List (List Char)
  | x :: y :: rest => (x ++ ' ' :: y) :: adjacentPairs (y :: rest)
  | _ => []

/-- `bigrams` (src/app/page.tsx, lines 271–277, inside
`semanticMatchScore`): adjacent pairs of the whitespace-split
normalized words — note: no stopword removal. -/
def bigrams (s : List Char) : List (List Char) :=
  adjacentPairs (simWords s)

/-- `bigramJaccard` (src/app/page.tsx, lines 278–282): the Jaccard
formula applied to bigram lists. -/
def bigramJaccard (a b : List (List Char)) : ℚ :=
  let inter := (a.toFinset ∩ b.toFinset).card
  let uni := (a.toFinset ∪ b.toFinset).card
  if uni = 0 then 0 else (inter : ℚ) / uni

/-- `Math.max(...arr)` for a non-empty list (the empty case never
arises in the source; it is mapped to `0`). -/
noncomputable def listMax : List ℝ → ℝ
  | [] => 0
  | x :: rest => rest.foldl max x

/-- `semanticMatchScore` (src/app/page.tsx, lines 264–288): `0` for a
blank response or an empty expected-answer list, else the maximum over
the expected answers of the larger of the token similarity and the
bigram Jaccard. -/
noncomputable def semanticMatchScore (response : List Char)
    (expectedArr : List (List Char)) : ℝ :=
  if jsTrim response = [] then 0
  else if expectedArr = [] then 0
  else
    listMax (expectedArr.map fun e =>
      max (semanticSimilarity response e)
        ((bigramJaccard (bigrams response) (bigrams e) : ℚ) : ℝ))

/-! ## Answer grading (the `written` branch of `handleQuizFinish`,
src/app/page.tsx, lines 1196–1213) -/

/-- The expected-answer list used for grading: the question's
`correct_written_answers` when non-empty, otherwise its prompt. -/
def writtenExpected (correctWritten : List (List Char)) (prompt : List Char) :
    List (List Char) :=
  if correctWritten = [] then [prompt] else correctWritten

/-- The grading score of a written response. -/
noncomputable def writtenSim (resp : List Char) (correctWritten : List (List Char))
    (prompt : List Char) : ℝ :=
  semanticMatchScore resp (writtenExpected correctWritten prompt)

/-- The correctness classification: `sim >= 0.6`. -/
def writtenIsCorrect (resp : List Char) (correctWritten : List (List Char))
    (prompt : List Char) : Prop :=
  (0.6 : ℝ) ≤ writtenSim resp correctWritten prompt

/-- Partial points awarded:
`Math.max(0, Math.round(sim * question.points))`; `Math.round x` is
`⌊x + 1/2⌋`. -/
noncomputable def writtenAwarded (resp : List Char) (correctWritten : List (List Char))
    (prompt : List Char) (points : Nat) : ℤ :=
  max 0 ⌊writtenSim resp correctWritten prompt * points + 1 / 2⌋

/-! ## Distractor selection (src/app/api/extract/route.ts) -/

/-- `s.toLowerCase()`. -/
def lowerStr (s : List Char) : List Char :=
  s.map Char.toLower

/-- The fixed generic filler distractor. -/
def fillerDistractor : List Char :=
  "An unrelated statement".toList

/-- `Array.from(new Set(xs))`: deduplicate keeping first occurrences. -/
def jsDedup (seen : List (List Char)) : List (List Char) → List (List Char)
  | [] => []
  | x :: rest =>
      if x ∈ seen then jsDedup seen rest
      else x :: jsDedup (x :: seen) rest

open scoped Classical in
/-- `pickFiltered` (src/app/api/extract/route.ts, lines 211–224):
score every candidate against the answer; prefer candidates inside the
similarity band, sorted by descending score, capped at 3; if fewer
than 3 qualify, relax the lower bound to `0.6 * minSim`, merge
(deduplicated) and cap at 3.  The JavaScript comparator
`(a, b) => b.s - a.s` sorts by descending score. -/
noncomputable def pickFiltered (minSim maxSim : ℝ) (answer : List Char)
    (cands : List (List Char)) : List (List Char) :=
  let scored := cands.map fun p => (p, semanticSimilarity answer p)
  let inRange := (((scored.filter fun x => decide (minSim ≤ x.2 ∧ x.2 ≤ maxSim)).mergeSort
    fun a b => decide (b.2 ≤ a.2)).map Prod.fst)
  if 3 ≤ inRange.length then inRange.take 3
  else
    let relaxed := (((scored.filter fun x => decide (minSim * 0.6 ≤ x.2)).mergeSort
      fun a b => decide (b.2 ≤ a.2)).map Prod.fst)
    (jsDedup [] (inRange ++ relaxed)).take 3

/-- The local (no embedding service) distractor construction of `POST`
(src/app/api/extract/route.ts, lines 250–259): filter the document
phrase pool down to phrases that differ from the answer
case-insensitively and have comparable length, pick filtered
distractors, then fill up to 3 slots with the generic filler.  The
`shuffle` call is a permutation of the pool; the theorems quantify
over every pool order, which subsumes it. -/
noncomputable def selectDistractorsLocal (minSim maxSim : ℝ) (answer : List Char)
    (phrases : List (List Char)) : List (List Char) :=
  let others := phrases.filter fun p =>
    lowerStr p ≠ lowerStr answer &&
      ((p.length : ℤ) - (answer.length : ℤ)).natAbs < max 6 answer.length
  let d := pickFiltered minSim maxSim answer others
  d ++ List.replicate (3 - d.length) fillerDistractor

/-! ## Normalizer lemmas

The normalized text is in "normal form": every whitespace character in
it is a plain space, no two adjacent characters are both whitespace,
and it neither starts nor ends with whitespace.  Each stage of the
normalizer is the identity on strings in normal form, which gives
idempotence.
-/

theorem mem_collapseWsAux (l : List Char) : ∀ (b : Bool) (c : Char),
    c ∈ collapseWsAux b l → isWs c = true → c = ' ' := by
  induction l with
  | nil => intro b c h; simp [collapseWsAux] at h
  | cons x rest ih =>
    intro b c h hw
    simp only [collapseWsAux] at h
    by_cases hx : isWs x
    · rw [if_pos hx] at h
      cases b with
      | true => simp only [if_pos rfl] at h; exact ih true c h hw
      | false =>
        simp only [Bool.false_eq_true, if_neg (fun h => h)] at h
        rcases List.mem_cons.mp h with h1 | h2
        · exact h1
        · exact ih true c h2 hw
    · rw [if_neg hx] at h
      rcases List.mem_cons.mp h with h1 | h2
      · exact absurd (h1 ▸ hw) hx
      · exact ih false c h2 hw

theorem head?_collapseWsAux_true (l : List Char) : ∀ (c : Char),
    (collapseWsAux true l).head? = some c → isWs c = false := by
  induction l with
  | nil => intro c h; simp [collapseWsAux] at h
  | cons x rest ih =>
    intro c h
    simp only [collapseWsAux, if_pos rfl] at h
    by_cases hx : isWs x
    · rw [if_pos hx] at h; exact ih c h
    · rw [if_neg hx] at h
      simp only [List.head?_cons, Option.some.injEq] at h
      subst h
      exact Bool.not_eq_true _ ▸ hx

theorem chain'_collapseWsAux (l : List Char) : ∀ (b : Bool),
    List.Chain' (fun a b => isWs a = false ∨ isWs b = false) (collapseWsAux b l) := by
  induction l with
  | nil => intro b; simp [collapseWsAux]
  | cons x rest ih =>
    intro b
    simp only [collapseWsAux]
    by_cases hx : isWs x
    · rw [if_pos hx]
      cases b with
      | true => simpa using ih true
      | false =>
        simp only [Bool.false_eq_true, if_neg (fun h => h)]
        refine List.chain'_cons'.mpr ⟨fun y hy => ?_, ih true⟩
        exact Or.inr (head?_collapseWsAux_true rest y hy)
    · rw [if_neg hx]
      refine List.chain'_cons'.mpr ⟨fun y _ => Or.inl ?_, ih false⟩
      exact Bool.not_eq_true _ ▸ hx

theorem collapseWsAux_id (l : List Char)
    (hall : ∀ c ∈ l, isWs c = true → c = ' ')
    (hch : List.Chain' (fun a b => isWs a = false ∨ isWs b = false) l) :
    collapseWsAux false l = l ∧
    ((∀ c, l.head? = some c → isWs c = false) → collapseWsAux true l = l) := by
  induction l with
  | nil => exact ⟨rfl, fun _ => rfl⟩
  | cons x rest ih =>
    have hallr : ∀ c ∈ rest, isWs c = true → c = ' ' :=
      fun c hc => hall c (List.mem_cons_of_mem x hc)
    have hchr : List.Chain' _ rest := hch.tail
    obtain ⟨ihf, iht⟩ := ih hallr hchr
    constructor
    · by_cases hx : isWs x
      · have hx' : x = ' ' := hall x (List.mem_cons_self x rest) hx
        have hrest : collapseWsAux true rest = rest := by
          refine iht fun c hc => ?_
          rcases (List.chain'_cons'.mp hch).1 c hc with h | h
          · exact absurd hx (by simp [h])
          · exact h
        simp only [collapseWsAux, if_pos hx, Bool.false_eq_true,
          if_neg (fun h => h), hrest, hx']
        rw [if_pos (show isWs ' ' = true by decide)]
      · simp only [collapseWsAux, if_neg hx, ihf]
    · intro hhd
      have hx : isWs x = false := hhd x rfl
      simp only [collapseWsAux, hx, Bool.false_eq_true, if_neg (fun h => h), ihf]

theorem head?_dropWhile_ws (p : Char → Bool) (l : List Char) : ∀ (c : Char),
    (l.dropWhile p).head? = some c → p c = false := by
  induction l with
  | nil => intro c h; simp at h
  | cons x rest ih =>
    intro c h
    by_cases hx : p x
    · rw [List.dropWhile_cons_of_pos hx] at h; exact ih c h
    · rw [List.dropWhile_cons_of_neg hx] at h
      simp only [List.head?_cons, Option.some.injEq] at h
      subst h
      exact Bool.not_eq_true _ ▸ hx

theorem jsTrim_subset (l : List Char) : jsTrim l ⊆ l := by
  intro c hc
  unfold jsTrim at hc
  rw [List.mem_reverse] at hc
  have h1 := (List.dropWhile_sublist (l := (l.dropWhile isWs).reverse) isWs).subset hc
  rw [List.mem_reverse] at h1
  exact (List.dropWhile_sublist isWs).subset h1

theorem chain'_jsTrim (l : List Char)
    (h : List.Chain' (fun a b => isWs a = false ∨ isWs b = false) l) :
    List.Chain' (fun a b => isWs a = false ∨ isWs b = false) (jsTrim l) := by
  have hsymm : ∀ (m : List Char),
      List.Chain' (fun a b => isWs a = false ∨ isWs b = false) m →
      List.Chain' (fun a b => isWs a = false ∨ isWs b = false) m.reverse := by
    intro m hm
    rw [List.chain'_reverse]
    exact hm.imp fun a b hab => hab.symm
  have h1 := h.suffix (List.dropWhile_suffix isWs)
  have h2 := hsymm _ h1
  have h3 := h2.suffix (List.dropWhile_suffix isWs)
  exact hsymm _ h3

theorem jsTrim_head?_not_ws (l : List Char) : ∀ (c : Char),
    (jsTrim l).head? = some c → isWs c = false := by
  intro c h
  unfold jsTrim at h
  rw [List.head?_reverse] at h
  set A := l.dropWhile isWs with hA
  set B := A.reverse.dropWhile isWs with hB
  have hBne : B ≠ [] := by
    intro hnil
    rw [hnil] at h
    simp at h
  obtain ⟨t, ht⟩ := List.dropWhile_suffix (l := A.reverse) isWs
  have hlast : B.getLast? = A.reverse.getLast? := by
    rw [← ht, List.getLast?_append]
    cases hB' : B.getLast? with
    | none => exact absurd (List.getLast?_eq_none_iff.mp hB') hBne
    | some y => simp
  rw [hlast, List.getLast?_reverse] at h
  exact head?_dropWhile_ws isWs l c h

theorem jsTrim_getLast?_not_ws (l : List Char) : ∀ (c : Char),
    (jsTrim l).getLast? = some c → isWs c = false := by
  intro c h
  unfold jsTrim at h
  rw [List.getLast?_reverse] at h
  exact head?_dropWhile_ws isWs _ c h

theorem dropWhile_eq_self_of_head (p : Char → Bool) (l : List Char)
    (h : ∀ c, l.head? = some c → p c = false) : l.dropWhile p = l := by
  cases l with
  | nil => rfl
  | cons x rest =>
    have hx : p x = false := h x rfl
    rw [List.dropWhile_cons_of_neg (by simp [hx])]

theorem jsTrim_id (l : List Char)
    (hh : ∀ c, l.head? = some c → isWs c = false)
    (hl : ∀ c, l.getLast? = some c → isWs c = false) : jsTrim l = l := by
  unfold jsTrim
  rw [dropWhile_eq_self_of_head isWs l hh]
  rw [dropWhile_eq_self_of_head isWs l.reverse
    (fun c hc => hl c (by rwa [List.head?_reverse] at hc))]
  exact List.reverse_reverse l

theorem map_id_of (f : Char → Char) (l : List Char)
    (h : ∀ c ∈ l, f c = c) : l.map f = l := by
  induction l with
  | nil => rfl
  | cons x rest ih =>
    rw [List.map_cons, h x (List.mem_cons_self x rest),
      ih fun c hc => h c (List.mem_cons_of_mem x hc)]

theorem replaceCRLF_id : ∀ (l : List Char), '\r' ∉ l → replaceCRLF l = l
  | [], _ => rfl
  | [_], _ => rfl
  | c1 :: c2 :: rest, h => by
      have h1 : c1 ≠ '\r' := fun e => h (by simp [e])
      rw [replaceCRLF, if_neg fun hc => h1 hc.1,
        replaceCRLF_id (c2 :: rest) fun hm => h (List.mem_cons_of_mem c1 hm)]

theorem replaceCR_id (l : List Char) (h : '\r' ∉ l) : replaceCR l = l := by
  apply map_id_of
  intro c hc
  rw [if_neg]
  intro e
  exact h (e ▸ hc)

theorem removeHyphenationAux_id : ∀ (l : List Char), '\n' ∉ l →
    removeHyphenationAux false l = l
  | [], _ => rfl
  | [c], _ => by
      rw [removeHyphenationAux, if_neg]
      simp
  | c1 :: c2 :: rest, h => by
      have h2 : c2 ≠ '\n' := fun e => h (by simp [e])
      rw [removeHyphenationAux, if_neg fun hc => h2 hc.2,
        if_neg (by simp : ¬(false = true ∧ isWs c1 = true)),
        removeHyphenationAux_id (c2 :: rest) fun hm => h (List.mem_cons_of_mem c1 hm)]

theorem collapseNewlinesAux_id : ∀ (l : List Char), '\n' ∉ l →
    collapseNewlinesAux false l = l
  | [], _ => rfl
  | [c], _ => by
      rw [collapseNewlinesAux, if_neg]
      simp
  | c1 :: c2 :: rest, h => by
      have h1 : c1 ≠ '\n' := fun e => h (by simp [e])
      rw [collapseNewlinesAux,
        if_neg (by simp : ¬(false = true ∧ c1 = '\n')),
        if_neg fun hc => h1 hc.1,
        collapseNewlinesAux_id (c2 :: rest) fun hm => h (List.mem_cons_of_mem c1 hm)]

theorem newlineToSpace_id (l : List Char) (h : '\n' ∉ l) : newlineToSpace l = l := by
  apply map_id_of
  intro c hc
  rw [if_neg]
  intro e
  exact h (e ▸ hc)

/-- Characters of the normalizer's output that are whitespace are
plain spaces; in particular the output contains no CR and no LF. -/
theorem normalize_ws_eq_space (x : List Char) :
    ∀ c ∈ normalizeTextForExtraction x, isWs c = true → c = ' ' := by
  intro c hc hw
  unfold normalizeTextForExtraction at hc
  by_cases hx : x = []
  · rw [if_pos hx] at hc; simp at hc
  · rw [if_neg hx] at hc
    have := jsTrim_subset _ hc
    exact mem_collapseWsAux _ false c this hw

theorem normalize_chain' (x : List Char) :
    List.Chain' (fun a b => isWs a = false ∨ isWs b = false)
      (normalizeTextForExtraction x) := by
  unfold normalizeTextForExtraction
  by_cases hx : x = []
  · rw [if_pos hx]; simp
  · rw [if_neg hx]
    exact chain'_jsTrim _ (chain'_collapseWsAux _ false)

theorem not_mem_normalize (x : List Char) (c : Char) (hws : isWs c = true)
    (hc : c ≠ ' ') : c ∉ normalizeTextForExtraction x :=
  fun hmem => hc (normalize_ws_eq_space x c hmem hws)

/-- C8 core: the normalizer is the identity on its own output. -/
theorem normalize_fixed (t : List Char)
    (hall : ∀ c ∈ t, isWs c = true → c = ' ')
    (hch : List.Chain' (fun a b => isWs a = false ∨ isWs b = false) t)
    (hh : ∀ c, t.head? = some c → isWs c = false)
    (hl : ∀ c, t.getLast? = some c → isWs c = false) :
    normalizeTextForExtraction t = t := by
  by_cases ht : t = []
  · rw [ht]; rfl
  · have hcr : '\r' ∉ t := fun hm => by
      have := hall '\r' hm (by decide)
      exact absurd this (by decide)
    have hlf : '\n' ∉ t := fun hm => by
      have := hall '\n' hm (by decide)
      exact absurd this (by decide)
    unfold normalizeTextForExtraction
    rw [if_neg ht, replaceCRLF_id t hcr, replaceCR_id t hcr]
    show jsTrim (collapseWs (newlineToSpace (collapseNewlinesAux false
      (removeHyphenationAux false t)))) = t
    rw [removeHyphenationAux_id t hlf, collapseNewlinesAux_id t hlf,
      newlineToSpace_id t hlf]
    show jsTrim (collapseWsAux false t) = t
    rw [(collapseWsAux_id t hall hch).1]
    exact jsTrim_id t hh hl

theorem normalize_head?_not_ws (x : List Char) :
    ∀ c, (normalizeTextForExtraction x).head? = some c → isWs c = false := by
  unfold normalizeTextForExtraction
  by_cases hx : x = []
  · rw [if_pos hx]; intro c h; simp at h
  · rw [if_neg hx]; exact jsTrim_head?_not_ws _

theorem normalize_getLast?_not_ws (x : List Char) :
    ∀ c, (normalizeTextForExtraction x).getLast? = some c → isWs c = false := by
  unfold normalizeTextForExtraction
  by_cases hx : x = []
  · rw [if_pos hx]; intro c h; simp at h
  · rw [if_neg hx]; exact jsTrim_getLast?_not_ws _

/-- **C8** (confirmed).  The Normalizer is idempotent: for every string
`x`, `normalizeTextForExtraction (normalizeTextForExtraction x)` equals
`normalizeTextForExtraction x`. -/
theorem normalizeTextForExtraction_idempotent (x : List Char) :
    normalizeTextForExtraction (normalizeTextForExtraction x) =
      normalizeTextForExtraction x :=
  normalize_fixed _ (normalize_ws_eq_space x) (normalize_chain' x)
    (normalize_head?_not_ws x) (normalize_getLast?_not_ws x)

/-- **C3** (code bug).  The claim says a run of 2 or more line breaks
is preserved in the output as a paragraph-break marker distinct from an
ordinary single space.  In the code, the collapse of a line-break run
to `"\n\n"` is immediately followed by the replacement of every
remaining line feed by a space and the collapse of whitespace runs, so
`"a\n\nb"` and `"a\nb"` both normalize to `"a b"`: the paragraph
boundary is destroyed, and the intermediate collapse to `"\n\n"` is
dead code. -/
theorem normalize_paragraph_marker_lost :
    normalizeTextForExtraction "a\n\nb".toList = "a b".toList ∧
    normalizeTextForExtraction "a\nb".toList = "a b".toList ∧
    '\n' ∉ normalizeTextForExtraction "a\n\nb".toList := by
  refine ⟨by decide, by decide, ?_⟩
  exact not_mem_normalize _ '\n' (by decide) (by decide)

/-! ## Chunker lemmas -/

theorem fillParts_ne_nil (cc : Nat) (s : List Char) (rest : List (List Char))
    (len : Nat) : fillParts cc (s :: rest) len true ≠ [] := by
  simp [fillParts]

theorem fillParts_length_le (cc : Nat) : ∀ (rem : List (List Char)) (len : Nat)
    (first : Bool), (fillParts cc rem len first).length ≤ rem.length
  | [], _, _ => le_refl _
  | s :: rest, len, first => by
      rw [fillParts]
      by_cases h : len < cc || first
      · rw [if_pos h]
        simpa using fillParts_length_le cc rest (len + s.length + 1) false
      · rw [if_neg h]
        simp

theorem backCount_le (oc : Nat) : ∀ (l : List (List Char)) (back : Nat),
    backCount oc l back ≤ l.length
  | [], _ => le_refl _
  | s :: rest, back => by
      rw [backCount]
      by_cases h : back < oc
      · rw [if_pos h]
        have := backCount_le oc rest (back + s.length + 1)
        simp only [List.length_cons]
        omega
      · rw [if_neg h]
        simp

/-- Master invariant of the chunking loop: with enough fuel it returns
`some` list whose head starts at the current cursor, whose
`startSentence` values strictly increase, whose `startChar` values are
non-decreasing, and whose sentence ranges cover every remaining
sentence index. -/
theorem chunkLoopF_spec (ss : List (List Char)) (cc oc : Nat) :
    ∀ (fuel idx charPos : Nat), ss.length - idx < fuel →
      ∃ l, chunkLoopF ss cc oc fuel idx charPos = some l ∧
        (∀ c, l.head? = some c → c.startSentence = idx ∧ c.startChar = charPos) ∧
        List.Chain' (fun a b => a.startSentence < b.startSentence) l ∧
        List.Chain' (fun a b => a.startChar ≤ b.startChar) l ∧
        (∀ m, idx ≤ m → m < ss.length →
          ∃ c ∈ l, c.startSentence ≤ m ∧ m ≤ c.endSentence) := by
  intro fuel
  induction fuel with
  | zero => intro idx charPos h; omega
  | succ fuel ih =>
    intro idx charPos hfuel
    by_cases hidx : idx < ss.length
    · have hrem : ss.drop idx ≠ [] := by
        intro hnil
        rw [List.drop_eq_nil_iff] at hnil
        omega
      set parts := fillParts cc (ss.drop idx) 0 true with hparts
      have hpne : parts ≠ [] := by
        obtain ⟨s, rest, hsr⟩ := List.exists_cons_of_ne_nil hrem
        rw [hparts, hsr]
        exact fillParts_ne_nil cc s rest 0
      have hplen : 0 < parts.length := List.length_pos.mpr hpne
      have hple : parts.length ≤ ss.length - idx := by
        have := fillParts_length_le cc (ss.drop idx) 0 true
        rwa [List.length_drop] at this
      set idx2 := idx + parts.length with hidx2
      set chunkText := joinWith ' ' parts with hct
      set endChar := charPos + chunkText.length with hec
      set chunk : Chunk :=
        ⟨chunkId charPos endChar, chunkText, idx, idx2 - 1, charPos, endChar⟩
        with hchunk
      by_cases h2 : idx2 < ss.length
      · set t := backCount oc (parts.drop 1).reverse 0 with ht
        have htle : t ≤ parts.length - 1 := by
          have := backCount_le oc (parts.drop 1).reverse 0
          rwa [List.length_reverse, List.length_drop] at this
        set newIdx := max idx (idx2 - t) with hnew
        have hadv : idx + 1 ≤ newIdx := by
          rw [hnew]
          omega
        have hnlt : ss.length - newIdx < fuel := by omega
        set charPos2 := charPos + (chunkText.length - oc) with hcp2
        obtain ⟨rest, hrest, hhead, hchainS, hchainC, hcov⟩ :=
          ih newIdx charPos2 hnlt
        refine ⟨chunk :: rest, ?_, ?_, ?_, ?_, ?_⟩
        · show chunkLoopF ss cc oc (fuel + 1) idx charPos = some (chunk :: rest)
          rw [chunkLoopF]
          simp only [if_pos hidx, if_pos h2, ← hparts, ← hct, ← ht, ← hnew,
            ← hcp2, hrest]
        · intro c hc
          simp only [List.head?_cons, Option.some.injEq] at hc
          subst hc
          exact ⟨rfl, rfl⟩
        · refine List.chain'_cons'.mpr ⟨fun y hy => ?_, hchainS⟩
          have := (hhead y hy).1
          show chunk.startSentence < y.startSentence
          rw [this]
          calc chunk.startSentence = idx := rfl
          _ < newIdx := by omega
        · refine List.chain'_cons'.mpr ⟨fun y hy => ?_, hchainC⟩
          have := (hhead y hy).2
          show chunk.startChar ≤ y.startChar
          rw [this, hcp2]
          exact Nat.le_add_right _ _
        · intro m hm1 hm2
          by_cases hm3 : m < idx2
          · exact ⟨chunk, List.mem_cons_self _ _, hm1, by
              show m ≤ idx2 - 1
              omega⟩
          · obtain ⟨c, hc1, hc2⟩ := hcov m (by omega) hm2
            exact ⟨c, List.mem_cons_of_mem _ hc1, hc2⟩
      · refine ⟨[chunk], ?_, ?_, ?_, ?_, ?_⟩
        · show chunkLoopF ss cc oc (fuel + 1) idx charPos = some [chunk]
          rw [chunkLoopF]
          simp only [if_pos hidx, if_neg h2, ← hparts, ← hct]
        · intro c hc
          simp only [List.head?_cons, Option.some.injEq] at hc
          subst hc
          exact ⟨rfl, rfl⟩
        · simp
        · simp
        · intro m hm1 hm2
          refine ⟨chunk, List.mem_cons_self _ _, hm1, ?_⟩
          show m ≤ idx2 - 1
          omega
    · refine ⟨[], ?_, by simp, by simp, by simp, ?_⟩
      · show chunkLoopF ss cc oc (fuel + 1) idx charPos = some []
        rw [chunkLoopF]
        simp only [if_neg hidx]
      · intro m hm1 hm2
        omega

/-- **C1** (counterexample).  On the example input with
`chunkChars = 50`, `overlapChars = 10`, the first chunk body is *not*
the first sentence alone and there is no second chunk: after the first
sentence the accumulated length is 48, still below 50, so the second
sentence is appended to the same chunk. -/
theorem chunk_example_counterexample :
    ¬ ((((chunkIntoSemanticChunks
          "The mitochondria is the powerhouse of the cell. It produces ATP through respiration.".toList
          50 10).map Chunk.text).head? =
        some "The mitochondria is the powerhouse of the cell.".toList) ∧
      2 ≤ (chunkIntoSemanticChunks
          "The mitochondria is the powerhouse of the cell. It produces ATP through respiration.".toList
          50 10).length) := by
  decide

/-- **C1** (amended).  On the example input with `chunkChars = 50`,
`overlapChars = 10`, the chunker produces exactly one chunk whose body
is the whole normalized text (both sentences joined by a space): the
fill loop keeps appending while the accumulated length is below the
budget, and 48 < 50 after the first sentence. -/
theorem chunk_example_single_chunk :
    (chunkIntoSemanticChunks
        "The mitochondria is the powerhouse of the cell. It produces ATP through respiration.".toList
        50 10).map Chunk.text =
      ["The mitochondria is the powerhouse of the cell. It produces ATP through respiration.".toList] := by
  decide

/-- **C4** (counterexample).  Chunk `startChar` values are not always
strictly increasing: on `"a. b. c."` with `chunkChars = 1`,
`overlapChars = 10` every chunk body is shorter than the overlap, so
the character cursor advances by `max 0 (len − overlap) = 0` and all
three chunks have `startChar = 0`. -/
theorem chunk_startChar_not_strictly_increasing :
    ¬ List.Chain' (· < ·)
      ((chunkIntoSemanticChunks "a. b. c.".toList 1 10).map Chunk.startChar) := by
  intro h
  have he : (chunkIntoSemanticChunks "a. b. c.".toList 1 10).map Chunk.startChar
      = [0, 0, 0] := by decide
  rw [he] at h
  exact absurd (List.chain'_cons.mp h).1 (lt_irrefl 0)

/-- **C4** (amended).  For every input text and every `chunkChars`,
`overlapChars` configuration, the `startChar` values of the produced
chunk sequence are non-decreasing (the cursor advances by
`max 0 (bodyLength − overlapChars) ≥ 0` between consecutive chunks). -/
theorem chunk_startChar_monotone (text : List Char) (cc oc : Nat) :
    List.Chain' (· ≤ ·)
      ((chunkIntoSemanticChunks text cc oc).map Chunk.startChar) := by
  unfold chunkIntoSemanticChunks
  by_cases hn : normalizeTextForExtraction text = []
  · simp [hn]
  · simp only [if_neg hn]
    set ss := splitIntoSentences (normalizeTextForExtraction text) with hss
    obtain ⟨l, hl, _, _, hchainC, _⟩ :=
      chunkLoopF_spec ss cc oc (ss.length + 1) 0 0 (by omega)
    rw [hl, Option.getD_some, List.chain'_map]
    exact hchainC

/-- **C5** (confirmed).  For every input text and every `chunkChars`,
`overlapChars` with `overlapChars < chunkChars`, every sentence index
of the normalized text lies in the `[startSentence, endSentence]`
range of at least one produced chunk. -/
theorem chunk_coverage (text : List Char) (cc oc : Nat) (hlt : oc < cc)
    (m : Nat)
    (hm : m < (splitIntoSentences (normalizeTextForExtraction text)).length) :
    ∃ c ∈ chunkIntoSemanticChunks text cc oc,
      c.startSentence ≤ m ∧ m ≤ c.endSentence := by
  unfold chunkIntoSemanticChunks
  by_cases hn : normalizeTextForExtraction text = []
  · rw [hn] at hm
    simp [splitIntoSentences, scanSentencesF] at hm
  · simp only [if_neg hn]
    set ss := splitIntoSentences (normalizeTextForExtraction text) with hss
    obtain ⟨l, hl, _, _, _, hcov⟩ :=
      chunkLoopF_spec ss cc oc (ss.length + 1) 0 0 (by omega)
    rw [hl, Option.getD_some]
    exact hcov m (Nat.zero_le m) hm

/-- Witness for C5 at a concrete input: `"a. b."` splits into two
sentences and sentence index 1 is covered. -/
theorem chunk_coverage_witness :
    ∃ c ∈ chunkIntoSemanticChunks "a. b.".toList 3 1,
      c.startSentence ≤ 1 ∧ 1 ≤ c.endSentence :=
  chunk_coverage "a. b.".toList 3 1 (by decide) 1 (by decide)

/-- **C7** (confirmed).  The chunking loop terminates for every input
and every parameter pair (including `overlapChars ≥ chunkChars`):
`sentences.length + 1` fuel always suffices (the loop makes forward
progress), and the produced chunks have strictly increasing
`startSentence` values. -/
theorem chunk_terminates (text : List Char) (cc oc : Nat) :
    ∃ l, chunkLoopF (splitIntoSentences (normalizeTextForExtraction text)) cc oc
        ((splitIntoSentences (normalizeTextForExtraction text)).length + 1) 0 0 =
          some l ∧
      chunkIntoSemanticChunks text cc oc = l ∧
      List.Chain' (fun a b => a.startSentence < b.startSentence) l := by
  set ss := splitIntoSentences (normalizeTextForExtraction text) with hss
  obtain ⟨l, hl, _, hchainS, _, _⟩ :=
    chunkLoopF_spec ss cc oc (ss.length + 1) 0 0 (by omega)
  refine ⟨l, hl, ?_, hchainS⟩
  unfold chunkIntoSemanticChunks
  by_cases hn : normalizeTextForExtraction text = []
  · rw [if_pos hn]
    rw [hss, hn] at hl
    have : chunkLoopF (splitIntoSentences []) cc oc
        ((splitIntoSentences []).length + 1) 0 0 = some [] := rfl
    rw [this] at hl
    exact (Option.some.injEq _ _ ▸ hl)
  · simp only [if_neg hn, ← hss, hl, Option.getD_some]

/-! ## Similarity lemmas -/

theorem isWs_toLower (c : Char) (h : isWs c = true) : Char.toLower c = c := by
  simp only [isWs, Bool.or_eq_true, decide_eq_true_eq] at h
  repeat' rcases h with h | h
  all_goals decide

theorem jsTrim_eq_nil_all_ws (s : List Char) (h : jsTrim s = []) :
    ∀ c ∈ s, isWs c = true := by
  unfold jsTrim at h
  rw [List.reverse_eq_nil_iff, List.dropWhile_eq_nil_iff] at h
  intro c hc
  rw [← List.takeWhile_append_dropWhile isWs s] at hc
  rcases List.mem_append.mp hc with h1 | h2
  · exact List.mem_takeWhile_imp h1
  · exact h c (List.mem_reverse.mpr h2)

theorem collapseWsAux_true_all_ws (l : List Char) (h : ∀ c ∈ l, isWs c = true) :
    collapseWsAux true l = [] := by
  induction l with
  | nil => rfl
  | cons x rest ih =>
    simp only [collapseWsAux, if_pos (h x (List.mem_cons_self x rest)), if_pos rfl]
    exact ih fun c hc => h c (List.mem_cons_of_mem x hc)

theorem simNormalize_all_ws (s : List Char) (h : ∀ c ∈ s, isWs c = true) :
    simNormalize s = [] := by
  unfold simNormalize
  rw [map_id_of Char.toLower s fun c hc => isWs_toLower c (h c hc)]
  rw [map_id_of _ s fun c hc => if_pos (by simp [h c hc])]
  show jsTrim (collapseWsAux false s) = []
  cases s with
  | nil => rfl
  | cons x rest =>
    simp only [collapseWsAux, if_pos (h x (List.mem_cons_self x rest)),
      Bool.false_eq_true, if_neg (fun hh => hh)]
    rw [collapseWsAux_true_all_ws rest fun c hc => h c (List.mem_cons_of_mem x hc)]
    decide

theorem tokens_all_ws (s : List Char) (h : ∀ c ∈ s, isWs c = true) :
    tokens s = [] := by
  unfold tokens simWords
  rw [simNormalize_all_ws s h]
  rfl

theorem jsTrim_ne_of_tokens_ne (r : List Char) (h : tokens r ≠ []) :
    jsTrim r ≠ [] :=
  fun hnil => h (tokens_all_ws r (jsTrim_eq_nil_all_ws r hnil))

theorem jaccard_le_one (a b : List (List Char)) : jaccard a b ≤ 1 := by
  unfold jaccard
  by_cases h : (a.toFinset ∪ b.toFinset).card = 0
  · rw [if_pos h]; norm_num
  · rw [if_neg h]
    rw [div_le_one (by exact_mod_cast Nat.pos_of_ne_zero h)]
    exact_mod_cast Finset.card_le_card
      (Finset.inter_subset_left.trans Finset.subset_union_left)

theorem jaccard_self_eq_one (a : List (List Char)) (h : a ≠ []) :
    jaccard a a = 1 := by
  unfold jaccard
  rw [Finset.inter_self, Finset.union_self]
  have hc : a.toFinset.card ≠ 0 := by
    intro h0
    exact h ((List.toFinset_eq_empty_iff a).mp (Finset.card_eq_zero.mp h0))
  rw [if_neg hc]
  exact div_self (by exact_mod_cast hc)

theorem bigramJaccard_eq_jaccard (a b : List (List Char)) :
    bigramJaccard a b = jaccard a b := rfl

theorem tfSqNorm_union_left (a b : List (List Char)) :
    ∑ w ∈ (a ++ b).toFinset, (tf a w : ℝ) ^ 2 = (tfSqNorm a : ℝ) := by
  unfold tfSqNorm
  push_cast
  refine (Finset.sum_subset ?_ ?_).symm
  · rw [List.toFinset_append]; exact Finset.subset_union_left
  · intro w _ hw
    have hz : tf a w = 0 := by
      unfold tf
      rw [List.count_eq_zero]
      exact fun hmem => hw (List.mem_toFinset.mpr hmem)
    rw [hz]
    norm_num

theorem tfSqNorm_union_right (a b : List (List Char)) :
    ∑ w ∈ (a ++ b).toFinset, (tf b w : ℝ) ^ 2 = (tfSqNorm b : ℝ) := by
  unfold tfSqNorm
  push_cast
  refine (Finset.sum_subset ?_ ?_).symm
  · rw [List.toFinset_append]; exact Finset.subset_union_right
  · intro w _ hw
    have hz : tf b w = 0 := by
      unfold tf
      rw [List.count_eq_zero]
      exact fun hmem => hw (List.mem_toFinset.mpr hmem)
    rw [hz]
    norm_num

theorem cosineSim_le_one (a b : List (List Char)) : cosineSim a b ≤ 1 := by
  unfold cosineSim
  by_cases h : tfSqNorm a = 0 ∨ tfSqNorm b = 0
  · rw [if_pos h]; norm_num
  · rw [if_neg h]
    push_neg at h
    have hsa : (0:ℝ) < Real.sqrt (tfSqNorm a) :=
      Real.sqrt_pos.mpr (by exact_mod_cast Nat.pos_of_ne_zero h.1)
    have hsb : (0:ℝ) < Real.sqrt (tfSqNorm b) :=
      Real.sqrt_pos.mpr (by exact_mod_cast Nat.pos_of_ne_zero h.2)
    rw [div_le_one (by positivity)]
    calc (tfDot a b : ℝ)
        = ∑ w ∈ (a ++ b).toFinset, (tf a w : ℝ) * (tf b w : ℝ) := by
          unfold tfDot; push_cast; rfl
      _ ≤ Real.sqrt (∑ w ∈ (a ++ b).toFinset, (tf a w : ℝ) ^ 2) *
          Real.sqrt (∑ w ∈ (a ++ b).toFinset, (tf b w : ℝ) ^ 2) :=
          Real.sum_mul_le_sqrt_mul_sqrt _ _ _
      _ = Real.sqrt (tfSqNorm a) * Real.sqrt (tfSqNorm b) := by
          rw [tfSqNorm_union_left, tfSqNorm_union_right]

theorem semanticSimilarity_le_one (a b : List Char) :
    semanticSimilarity a b ≤ 1 := by
  simp only [semanticSimilarity]
  by_cases h : tokens a = [] ∨ tokens b = []
  · rw [if_pos h]; norm_num
  · rw [if_neg h]
    refine max_le ?_ (cosineSim_le_one _ _)
    exact_mod_cast jaccard_le_one (tokens a) (tokens b)

theorem semanticSimilarity_self (a : List Char) (h : tokens a ≠ []) :
    semanticSimilarity a a = 1 := by
  simp only [semanticSimilarity]
  rw [if_neg (by simp [h]), jaccard_self_eq_one _ h]
  push_cast
  exact max_eq_left (cosineSim_le_one _ _)

theorem le_foldl_max (rest : List ℝ) : ∀ acc, acc ≤ rest.foldl max acc := by
  induction rest with
  | nil => intro acc; simp
  | cons y rest ih =>
    intro acc
    exact le_trans (le_max_left acc y) (ih (max acc y))

theorem mem_le_foldl_max (rest : List ℝ) : ∀ acc x, x ∈ rest →
    x ≤ rest.foldl max acc := by
  induction rest with
  | nil => intro acc x h; simp at h
  | cons y rest ih =>
    intro acc x h
    rcases List.mem_cons.mp h with h1 | h2
    · subst h1; exact le_trans (le_max_right acc x) (le_foldl_max rest _)
    · exact ih _ x h2

theorem foldl_max_le (rest : List ℝ) : ∀ acc u, acc ≤ u → (∀ x ∈ rest, x ≤ u) →
    rest.foldl max acc ≤ u := by
  induction rest with
  | nil => intro acc u h _; simpa using h
  | cons y rest ih =>
    intro acc u h hall
    exact ih _ u (max_le h (hall y (List.mem_cons_self y rest)))
      fun x hx => hall x (List.mem_cons_of_mem y hx)

theorem le_listMax (l : List ℝ) (x : ℝ) (h : x ∈ l) : x ≤ listMax l := by
  cases l with
  | nil => simp at h
  | cons y rest =>
    show x ≤ rest.foldl max y
    rcases List.mem_cons.mp h with h1 | h2
    · subst h1; exact le_foldl_max rest x
    · exact mem_le_foldl_max rest y x h2

theorem listMax_le (l : List ℝ) (u : ℝ) (h : l ≠ []) (hall : ∀ x ∈ l, x ≤ u) :
    listMax l ≤ u := by
  cases l with
  | nil => exact absurd rfl h
  | cons y rest =>
    show rest.foldl max y ≤ u
    exact foldl_max_le rest y u (hall y (List.mem_cons_self y rest))
      fun x hx => hall x (List.mem_cons_of_mem y hx)

/-- **C2** (amended).  For every non-empty expected-answer list and
positive `maxPoints`: a response identical to one of the expected
answers *whose token list is non-empty after stopword removal* scores
exactly 1 and is classified correct; an empty response scores 0, is
classified incorrect, and is awarded `max(0, round(0 × maxPoints)) = 0`
points. -/
theorem grading_boundary (cw : List (List Char)) (prompt r : List Char)
    (points : Nat) (hcw : cw ≠ []) (hpts : 0 < points) (hmem : r ∈ cw)
    (htok : tokens r ≠ []) :
    writtenSim r cw prompt = 1 ∧ writtenIsCorrect r cw prompt ∧
    writtenSim [] cw prompt = 0 ∧ ¬ writtenIsCorrect [] cw prompt ∧
    writtenAwarded [] cw prompt points = 0 := by
  have hexp : writtenExpected cw prompt = cw := if_neg hcw
  have hscore : writtenSim r cw prompt = 1 := by
    unfold writtenSim
    rw [hexp]
    unfold semanticMatchScore
    rw [if_neg (jsTrim_ne_of_tokens_ne r htok), if_neg hcw]
    apply le_antisymm
    · apply listMax_le
      · simpa using hcw
      · intro x hx
        obtain ⟨e, _, rfl⟩ := List.mem_map.mp hx
        refine max_le (semanticSimilarity_le_one r e) ?_
        exact_mod_cast jaccard_le_one (bigrams r) (bigrams e)
    · calc (1:ℝ) = semanticSimilarity r r := (semanticSimilarity_self r htok).symm
        _ ≤ max (semanticSimilarity r r)
              ((bigramJaccard (bigrams r) (bigrams r) : ℚ) : ℝ) := le_max_left _ _
        _ ≤ _ := le_listMax _ _ (List.mem_map.mpr ⟨r, hmem, rfl⟩)
  have hzero : writtenSim [] cw prompt = 0 := by
    unfold writtenSim semanticMatchScore
    rw [hexp, if_pos (show jsTrim ([] : List Char) = [] from rfl)]
  refine ⟨hscore, ?_, hzero, ?_, ?_⟩
  · unfold writtenIsCorrect
    rw [hscore]
    norm_num
  · unfold writtenIsCorrect
    rw [hzero]
    norm_num
  · unfold writtenAwarded
    rw [hzero]
    have h12 : ⌊(0:ℝ) * points + 1 / 2⌋ = 0 := by
      rw [zero_mul, zero_add, Int.floor_eq_zero_iff]
      constructor <;> norm_num
    rw [h12]
    simp

/-- Witness for C2 at a concrete input. -/
theorem grading_boundary_witness :
    writtenSim "cat".toList ["cat".toList] "p".toList = 1 ∧
    writtenIsCorrect "cat".toList ["cat".toList] "p".toList ∧
    writtenSim [] ["cat".toList] "p".toList = 0 ∧
    ¬ writtenIsCorrect [] ["cat".toList] "p".toList ∧
    writtenAwarded [] ["cat".toList] "p".toList 2 = 0 :=
  grading_boundary ["cat".toList] "p".toList "cat".toList 2
    (by decide) (by decide) (by decide) (by decide)

/-- **C2** (counterexample).  A response identical to an expected
answer does *not* always score 1: the stopword-only response `"the"`
against expected answers `["the"]` tokenizes to the empty list, the
bigram list is also empty, so the grading score is 0 and the response
is classified incorrect. -/
theorem grading_identical_stopword_scores_zero :
    "the".toList ∈ ["the".toList] ∧
    writtenSim "the".toList ["the".toList] "p".toList = 0 ∧
    ¬ writtenIsCorrect "the".toList ["the".toList] "p".toList := by
  have hsim : writtenSim "the".toList ["the".toList] "p".toList = 0 := by
    unfold writtenSim writtenExpected semanticMatchScore
    rw [if_neg (by decide : ¬("the".toList :: ([] : List (List Char))) = []),
      if_neg (by decide : jsTrim "the".toList ≠ []),
      if_neg (by decide : ¬("the".toList :: ([] : List (List Char))) = [])]
    have hsem : semanticSimilarity "the".toList "the".toList = 0 := by
      simp only [semanticSimilarity]
      rw [if_pos (Or.inl (by decide))]
    have hbig : bigramJaccard (bigrams "the".toList) (bigrams "the".toList) = 0 := by
      decide
    rw [List.map_cons, List.map_nil, hsem, hbig]
    show max (0:ℝ) ((0:ℚ):ℝ) = 0
    push_cast
    exact max_self 0
  refine ⟨by decide, hsim, ?_⟩
  unfold writtenIsCorrect
  rw [hsim]
  norm_num

/-- **C6** (counterexample).  The bigram signal is *not* computed over
the stopword-removed token sequence: on `"the cat"` the code's bigram
list is `["the cat"]`, while adjacent pairs of the stopword-removed
tokens `["cat"]` would be empty. -/
theorem bigrams_not_over_stopword_tokens :
    bigrams "the cat".toList ≠ adjacentPairs (tokens "the cat".toList) := by
  decide

/-- **C6** (amended).  The bigram signal is the Jaccard similarity of
adjacent pairs of the normalized, whitespace-split word sequence
*before* stopword removal; the single-token Jaccard and cosine signals
use the stopword-filtered subsequence of that same sequence. -/
theorem bigrams_over_unfiltered_words (s : List Char) :
    bigrams s = adjacentPairs (simWords s) ∧
    tokens s = (simWords s).filter (fun t => !stopList.contains t) ∧
    (tokens s).Sublist (simWords s) :=
  ⟨rfl, rfl, List.filter_sublist (simWords s)⟩

/-! ## Distractor lemmas -/

theorem jsDedup_subset : ∀ (seen l : List (List Char)) (x : List Char),
    x ∈ jsDedup seen l → x ∈ l
  | _, [], x, h => by simp [jsDedup] at h
  | seen, y :: rest, x, h => by
      rw [jsDedup] at h
      by_cases hy : y ∈ seen
      · rw [if_pos hy] at h
        exact List.mem_cons_of_mem y (jsDedup_subset seen rest x h)
      · rw [if_neg hy] at h
        rcases List.mem_cons.mp h with h1 | h2
        · exact h1 ▸ List.mem_cons_self x rest
        · exact List.mem_cons_of_mem y (jsDedup_subset (y :: seen) rest x h2)

theorem pickFiltered_subset (minSim maxSim : ℝ) (answer : List Char)
    (cands : List (List Char)) (x : List Char)
    (h : x ∈ pickFiltered minSim maxSim answer cands) : x ∈ cands := by
  classical
  have key : ∀ (f : List Char × ℝ → Bool) (y : List Char),
      y ∈ (((cands.map fun p => (p, semanticSimilarity answer p)).filter f).mergeSort
        fun a b => decide (b.2 ≤ a.2)).map Prod.fst → y ∈ cands := by
    intro f y hy
    obtain ⟨z, hz, rfl⟩ := List.mem_map.mp hy
    have h1 := (List.mergeSort_perm _ _).mem_iff.mp hz
    have h2 := (List.filter_sublist _).subset h1
    obtain ⟨p, hp, rfl⟩ := List.mem_map.mp h2
    exact hp
  simp only [pickFiltered] at h
  split at h
  · exact key _ x (List.take_subset 3 _ h)
  · have h3 := List.take_subset 3 _ h
    have h4 := jsDedup_subset [] _ x h3
    rcases List.mem_append.mp h4 with h5 | h5
    · exact key _ x h5
    · exact key _ x h5

theorem pickFiltered_length_le (minSim maxSim : ℝ) (answer : List Char)
    (cands : List (List Char)) :
    (pickFiltered minSim maxSim answer cands).length ≤ 3 := by
  simp only [pickFiltered]
  split
  · rw [List.length_take]; exact Nat.min_le_left _ _
  · rw [List.length_take]; exact Nat.min_le_left _ _

theorem pickFiltered_nil (minSim maxSim : ℝ) (answer : List Char) :
    pickFiltered minSim maxSim answer [] = [] := by
  simp [pickFiltered, jsDedup]

/-- **C9** (amended).  Provided the answer phrase itself does not equal
the fixed filler string case-insensitively, the selected distractor
list never contains the answer phrase (case-insensitive comparison) —
and its length is always exactly 3 (for *every* pool, the final fill
loop pads with the filler). -/
theorem distractor_disjointness (minSim maxSim : ℝ) (answer : List Char)
    (phrases : List (List Char))
    (h : lowerStr answer ≠ lowerStr fillerDistractor) :
    (selectDistractorsLocal minSim maxSim answer phrases).length = 3 ∧
    ∀ d ∈ selectDistractorsLocal minSim maxSim answer phrases,
      lowerStr d ≠ lowerStr answer := by
  simp only [selectDistractorsLocal]
  constructor
  · rw [List.length_append, List.length_replicate]
    have := pickFiltered_length_le minSim maxSim answer
      (phrases.filter fun p =>
        lowerStr p ≠ lowerStr answer &&
          ((p.length : ℤ) - (answer.length : ℤ)).natAbs < max 6 answer.length)
    omega
  · intro x hx
    rcases List.mem_append.mp hx with h1 | h2
    · have h3 := pickFiltered_subset _ _ _ _ x h1
      have h4 := List.of_mem_filter h3
      simp only [Bool.and_eq_true, decide_eq_true_eq] at h4
      exact h4.1
    · rw [List.eq_of_mem_replicate h2]
      exact fun he => h he.symm

/-- Witness for C9 at a concrete input: answer `"cat"`, empty pool. -/
theorem distractor_disjointness_witness :
    (selectDistractorsLocal (12/100 : ℝ) (75/100) "cat".toList []).length = 3 ∧
    ∀ d ∈ selectDistractorsLocal (12/100 : ℝ) (75/100) "cat".toList [],
      lowerStr d ≠ lowerStr "cat".toList :=
  distractor_disjointness (12/100) (75/100) "cat".toList [] (by decide)

/-- **C9** (counterexample).  If the answer phrase happens to equal the
fixed filler string `"An unrelated statement"`, the fill loop puts the
filler — and hence the answer itself, case-insensitively — into the
distractor set: with an empty pool all three slots are the filler. -/
theorem distractor_contains_answer :
    ¬ (∀ d ∈ selectDistractorsLocal (12/100 : ℝ) (75/100) fillerDistractor [],
        lowerStr d ≠ lowerStr fillerDistractor) := by
  intro hall
  have hsel : selectDistractorsLocal (12/100 : ℝ) (75/100) fillerDistractor [] =
      List.replicate 3 fillerDistractor := by
    simp only [selectDistractorsLocal, List.filter_nil, pickFiltered_nil]
    rfl
  exact hall fillerDistractor
    (by rw [hsel]; exact List.mem_replicate.mpr ⟨by decide, rfl⟩) rfl

/-! ## Header/footer lemmas -/

theorem splitOn_ne_nil (sep : Char) : ∀ (s : List Char), splitOn sep s ≠ []
  | [] => by simp [splitOn]
  | x :: rest => by
      rw [splitOn]
      by_cases hx : x = sep
      · rw [if_pos hx]; simp
      · rw [if_neg hx]
        cases hsp : splitOn sep rest with
        | nil => simp
        | cons r rs => simp

theorem mem_splitOn_not_mem (sep : Char) (s : List Char) :
    ∀ l ∈ splitOn sep s, sep ∉ l := by
  induction s with
  | nil =>
    intro l hl
    simp only [splitOn, List.mem_singleton] at hl
    simp [hl]
  | cons x rest ih =>
    intro l hl
    rw [splitOn] at hl
    by_cases hx : x = sep
    · rw [if_pos hx] at hl
      rcases List.mem_cons.mp hl with h1 | h2
      · simp [h1]
      · exact ih l h2
    · rw [if_neg hx] at hl
      cases hsp : splitOn sep rest with
      | nil => exact absurd hsp (splitOn_ne_nil sep rest)
      | cons r rs =>
        rw [hsp] at hl
        rcases List.mem_cons.mp hl with h1 | h2
        · subst h1
          intro hmem
          rcases List.mem_cons.mp hmem with he | hm
          · exact hx he.symm
          · exact ih r (hsp ▸ List.mem_cons_self r rs) hm
        · exact ih l (hsp ▸ List.mem_cons_of_mem r h2)

theorem splitOn_no_sep (sep : Char) : ∀ (x : List Char), sep ∉ x →
    splitOn sep x = [x]
  | [], _ => rfl
  | c :: x', h => by
      have hc : ¬ c = sep := fun e => h (by simp [e])
      rw [splitOn, if_neg hc, splitOn_no_sep sep x' fun hm => h (List.mem_cons_of_mem c hm)]

theorem splitOn_append_cons (sep : Char) : ∀ (x t : List Char), sep ∉ x →
    splitOn sep (x ++ sep :: t) = x :: splitOn sep t
  | [], t, _ => by
      rw [List.nil_append, splitOn, if_pos rfl]
  | c :: x', t, h => by
      have hc : ¬ c = sep := fun e => h (by simp [e])
      rw [List.cons_append, splitOn, if_neg hc,
        splitOn_append_cons sep x' t fun hm => h (List.mem_cons_of_mem c hm)]

theorem splitOn_joinWith (sep : Char) : ∀ (parts : List (List Char)),
    parts ≠ [] → (∀ p ∈ parts, sep ∉ p) →
    splitOn sep (joinWith sep parts) = parts
  | [], h, _ => absurd rfl h
  | [x], _, hall => by
      rw [joinWith, splitOn_no_sep sep x (hall x (List.mem_cons_self x []))]
  | x :: y :: rest, _, hall => by
      rw [joinWith,
        splitOn_append_cons sep x _ (hall x (List.mem_cons_self x (y :: rest))),
        splitOn_joinWith sep (y :: rest) (by simp)
          fun p hp => hall p (List.mem_cons_of_mem x hp)]

theorem lines_of_filter_join (p : List Char) (f : List Char → Bool)
    (l : List Char)
    (hl : l ∈ splitOn '\n'
      (joinWith '\n' (((splitOn '\n' p).map jsTrim).filter f)))
    (hlne : l ≠ []) : ∃ l' ∈ splitOn '\n' p, l = jsTrim l' := by
  set filtered := ((splitOn '\n' p).map jsTrim).filter f with hf
  have hnomem : ∀ q ∈ filtered, '\n' ∉ q := by
    intro q hq
    have hq2 := (List.filter_sublist _).subset hq
    obtain ⟨l', hl', rfl⟩ := List.mem_map.mp hq2
    intro hmem
    exact mem_splitOn_not_mem '\n' p l' hl' (jsTrim_subset l' hmem)
  by_cases hfe : filtered = []
  · rw [hfe] at hl
    simp only [joinWith, splitOn, List.mem_singleton] at hl
    exact absurd hl hlne
  · rw [splitOn_joinWith '\n' filtered hfe hnomem] at hl
    have hmem := (List.filter_sublist _).subset hl
    obtain ⟨l', hl', rfl⟩ := List.mem_map.mp hmem
    exact ⟨l', hl', rfl⟩

/-- **C10** (amended).  Inputs with fewer than 2 pages are returned
unchanged without processing.  For a multi-page input, the output has
one page per input page and every *non-empty* line of an output page is
the whitespace-trimmed form of some line of the corresponding input
page (a page whose every trimmed line is classified as a repeated
artifact becomes the empty string, whose single split line is empty).
A multi-page input that is already line-trimmed and artifact-free is
returned equal to the input, so being returned unchanged is not
exclusive to sub-2-page inputs. -/
theorem headers_footers_frame (pages : List (List Char)) :
    (pages.length ≤ 1 → removeHeadersFootersFromPages pages = pages) ∧
    (removeHeadersFootersFromPages pages).length = pages.length ∧
    (2 ≤ pages.length → ∀ i, i < pages.length →
      ∀ l ∈ splitOn '\n' ((removeHeadersFootersFromPages pages).getD i []),
        l ≠ [] → ∃ l' ∈ splitOn '\n' (pages.getD i []), l = jsTrim l') := by
  by_cases hlen : pages.length ≤ 1
  · refine ⟨fun _ => ?_, ?_, fun h2 => absurd h2 (by omega)⟩
    · unfold removeHeadersFootersFromPages; rw [if_pos hlen]
    · unfold removeHeadersFootersFromPages; rw [if_pos hlen]
  · refine ⟨fun h1 => absurd h1 hlen, ?_, ?_⟩
    · simp only [removeHeadersFootersFromPages, if_neg hlen, List.length_map]
    · intro _ i hi l hl hlne
      simp only [removeHeadersFootersFromPages, if_neg hlen] at hl
      rw [List.getD_eq_getElem _ _ (by rwa [List.length_map]),
        List.getElem_map] at hl
      rw [List.getD_eq_getElem _ _ hi]
      by_cases hpe : pages[i] = []
      · rw [if_pos hpe, hpe] at hl
        simp only [splitOn, List.mem_singleton] at hl
        exact absurd hl hlne
      · rw [if_neg hpe] at hl
        exact lines_of_filter_join pages[i] _ l hl hlne

/-- Witness for C10 at concrete inputs: a single-page input is
returned unchanged, and line `"c"` of the second output page of a
two-page input is the trimmed form of the input line `" c "`. -/
theorem headers_footers_frame_witness :
    removeHeadersFootersFromPages [" x".toList] = [" x".toList] ∧
    (∃ l' ∈ splitOn '\n' (["a\nb".toList, " c \nd".toList].getD 1 []),
      "c".toList = jsTrim l') :=
  ⟨(headers_footers_frame [" x".toList]).1 (by decide),
   (headers_footers_frame ["a\nb".toList, " c \nd".toList]).2.2 (by decide)
     1 (by decide) "c".toList (by decide) (by decide)⟩

/-- **C10** (counterexample).  A multi-page input can also be returned
fully unchanged: two already-trimmed pages with no repeated
header/footer line pass through identically, refuting "only inputs
with fewer than 2 pages are returned fully unchanged". -/
theorem headers_footers_unchanged_two_pages :
    removeHeadersFootersFromPages ["a\nb".toList, "c\nd".toList] =
      ["a\nb".toList, "c\nd".toList] ∧
    ¬ (["a\nb".toList, "c\nd".toList] : List (List Char)).length ≤ 1 := by
  constructor
  · decide
  · decide

end QuizGenPro
